import Mathlib

/-!
Verification of the conversation listing pipeline of tidy_slack (src/main.rs).

Rust strings are modelled as lists of characters (Rust `String` comparison is
byte-wise over UTF-8, which coincides with code-point order, i.e. with the
lexicographic order on the character list).  Fallible operations return
`Except`; the network collaborators (page fetch, user lookup) are passed in as
function parameters so that the pure control logic of `main.rs` can be stated
and proved as written.
-/

open List

/-- Character list of a string literal; used to write Rust string constants. -/
def str (s : String) : List Char := s.data

/-- Model of Rust `str::contains` (case-sensitive substring containment):
scan every suffix of the haystack for the needle as a prefix. -/
def strContains (haystack needle : List Char) : Bool :=
  haystack.tails.any (fun t => needle.isPrefixOf t)

/-- Model of Rust `rsplitn(2, sep)` for a single-character separator, collected
into a list in the iterator's (right-to-left) order: if `sep` occurs in `s` the
iterator yields the part after the last `sep`, then the part before it;
otherwise it yields `s` alone (src/main.rs line 481). -/
def rsplitn2 (sep : Char) (s : List Char) : List (List Char) :=
  match s.reverse.span (fun c => c ≠ sep) with
  | (_, []) => [s]
  | (revAfter, _ :: revBefore) => [revAfter.reverse, revBefore.reverse]

/-- Model of Rust `split` with the fixed two-character pattern `c0 c1`
(used with "--" in src/main.rs line 484): leftmost non-overlapping matches,
`acc` holds the reversed characters of the fragment being accumulated. -/
def splitOnPairAux (c0 c1 : Char) (acc : List Char) : List Char → List (List Char)
  | [] => [acc.reverse]
  | [c] => [(c :: acc).reverse]
  | c :: c2 :: rest =>
      if c = c0 ∧ c2 = c1 then acc.reverse :: splitOnPairAux c0 c1 [] rest
      else splitOnPairAux c0 c1 (c :: acc) (c2 :: rest)

/-- Rust `s.split(two-character pattern)` as a list of fragments. -/
def splitOnPair (c0 c1 : Char) (s : List Char) : List (List Char) :=
  splitOnPairAux c0 c1 [] s

/-- Multi-person-DM member decoding, modelling src/main.rs lines 478-486:
`convo.name.split_off(5).rsplitn(2, "-").last()` — the `split_off(5)` drops
the 5-character "mpdm-" prefix (ASCII, so byte index 5 is character index 5),
`rsplitn(2, "-").last()` keeps the iterator's last-yielded part, and `unwrap`
is modelled by `Option`. The retained part is split on "--". -/
def decodeMpdmNames? (name : List Char) : Option (List (List Char)) :=
  ((rsplitn2 '-' (name.drop 5)).getLast?).map (fun retained => splitOnPair '-' '-' retained)

/-- Total version of `decodeMpdmNames?` used by the normalizer; the `unwrap`
in the source never fails (see the totality theorem), so the default is dead. -/
def decodeMpdmNames (name : List Char) : List (List Char) :=
  (decodeMpdmNames? name).getD []

/-- Fields of the public-channel variant read by the pipeline (src/main.rs
lines 147-180; the remaining fields of the serde schema are deserialized but
never used by `ls`). -/
structure PublicChannel where
  id : List Char
  name : List Char
  created : Nat
  is_archived : Bool
deriving DecidableEq

/-- Fields of the private-channel variant read by the pipeline (src/main.rs
lines 182-213; unused serde-only fields omitted). -/
structure PrivateChannel where
  id : List Char
  name : List Char
  created : Nat
  is_archived : Bool
deriving DecidableEq

/-- The direct-message variant (src/main.rs lines 215-225). -/
structure Im where
  id : List Char
  created : Nat
  is_archived : Bool
  user : List Char
  is_user_deleted : Bool
deriving DecidableEq

/-- Model of `enum Conversation` (src/main.rs lines 139-145). -/
inductive Conversation where
  | PublicChannel : PublicChannel → Conversation
  | PrivateChannel : PrivateChannel → Conversation
  | Im : Im → Conversation
deriving DecidableEq

/-- Model of `struct Metadata` (src/main.rs lines 241-244). -/
structure Metadata where
  next_cursor : List Char
deriving DecidableEq

/-- Model of `struct Conversations`, the success payload of one page (src/main.rs
lines 131-137). -/
structure Conversations where
  ok : Bool
  warning : Option (List Char)
  channels : List Conversation
  response_metadata : Metadata
deriving DecidableEq

/-- Model of `struct ConversationsError` (src/main.rs lines 119-123); its `Display`
implementation renders exactly the `error` code string. -/
structure ConversationsError where
  ok : Bool
  error : List Char
deriving DecidableEq

/-- Model of `enum ConversationsKind` (src/main.rs lines 112-117), an untagged union:
serde tries the variants in declaration order, success payload first. -/
inductive ConversationsKind where
  | Conversations : Conversations → ConversationsKind
  | Error : ConversationsError → ConversationsKind
deriving DecidableEq

/-- Model of `struct NormalizedConversation` (src/main.rs lines 586-593). -/
structure NormalizedConversation where
  id : List Char
  type_identifier : List Char
  names : List (List Char)
  is_archived : Bool
  is_deleted : Bool
deriving DecidableEq

/-- Normalization of one raw conversation, modelling the match in the `ls`
loop body (src/main.rs lines 461-514).  The user lookup (`get_user`, src/main.rs
lines 399-417) is passed in as a function; its failure (the source's `unwrap`
on line 504 aborting the process) is modelled by `Except` propagation. -/
def normalizeConversation {ε : Type} (get_user : List Char → Except ε (List Char)) :
    Conversation → Except ε NormalizedConversation
  | Conversation.PublicChannel convo =>
      Except.ok
        { id := convo.id
          type_identifier := str "#"
          names := [convo.name]
          is_archived := convo.is_archived
          is_deleted := false }
  | Conversation.PrivateChannel convo =>
      if "mpdm-".data.isPrefixOf convo.name then
        Except.ok
          { id := convo.id
            type_identifier := str "&"
            names := decodeMpdmNames convo.name
            is_archived := convo.is_archived
            is_deleted := false }
      else
        Except.ok
          { id := convo.id
            type_identifier := str "!"
            names := [convo.name]
            is_archived := convo.is_archived
            is_deleted := false }
  | Conversation.Im convo =>
      match get_user convo.user with
      | Except.error e => Except.error e
      | Except.ok name =>
          Except.ok
            { id := convo.id
              type_identifier := str "@"
              names := [name]
              is_archived := convo.is_archived
              is_deleted := convo.is_user_deleted }

/-- The normalization loop over all fetched conversations, in order; the first
failing user lookup aborts the whole run (src/main.rs lines 460-517). -/
def normalizeConversations {ε : Type} (get_user : List Char → Except ε (List Char)) :
    List Conversation → Except ε (List NormalizedConversation)
  | [] => Except.ok []
  | c :: rest =>
      match normalizeConversation get_user c with
      | Except.error e => Except.error e
      | Except.ok n =>
          match normalizeConversations get_user rest with
          | Except.error e => Except.error e
          | Except.ok ns => Except.ok (n :: ns)

/-- One step of `get_conversations` (src/main.rs lines 253-270) with explicit
fuel for the unbounded `loop` (`none` models non-termination) and, as a ghost
second component, the list of cursors passed to `get_conversations_page`, in
call order.  `acc` is the `conversations` accumulator, `trace` the ghost list. -/
def get_conversations_loop {ε : Type} (fetch : List Char → Except ε Conversations) :
    Nat → List Char → List Conversation → List (List Char) →
    Option (Except ε (List Conversation × List (List Char)))
  | 0, _, _, _ => none
  | fuel + 1, cursor, acc, trace =>
      match fetch cursor with
      | Except.error e => some (Except.error e)
      | Except.ok result =>
          if result.response_metadata.next_cursor = [] then
            some (Except.ok (acc ++ result.channels, trace ++ [cursor]))
          else
            get_conversations_loop fetch fuel result.response_metadata.next_cursor
              (acc ++ result.channels) (trace ++ [cursor])

/-- Model of `get_conversations` (src/main.rs lines 253-270): start from the empty
cursor with an empty accumulator; the page fetcher is a parameter. -/
def get_conversations {ε : Type} (fetch : List Char → Except ε Conversations)
    (fuel : Nat) : Option (Except ε (List Conversation × List (List Char))) :=
  get_conversations_loop fetch fuel [] [] []

/-- The filter predicate of `ls` (src/main.rs lines 527-534): keep a record
when some entry of `names` contains the substring. -/
def conversationMatches (substring : List Char) (convo : NormalizedConversation) : Bool :=
  convo.names.any (fun name => strContains name substring)

/-- The filter step of `ls` (src/main.rs lines 519-536): applied only when a
non-empty substring was supplied. -/
def filterConversations (substring : List Char)
    (conversations : List NormalizedConversation) : List NormalizedConversation :=
  if substring ≠ [] then conversations.filter (conversationMatches substring)
  else conversations

/-- Model of `conversation.names.sort_unstable()` (src/main.rs line 542).  The sort is
modelled by a stable sort; unstable and stable sorting agree observably here
because tied keys are equal strings. -/
def sortNamesInConversation (convo : NormalizedConversation) : NormalizedConversation :=
  { convo with names := convo.names.insertionSort (· ≤ ·) }

/-- The two record sort passes of `ls` (src/main.rs lines 548-549): first by
`names` (Rust `sort_unstable_by` with `partial_cmp` on `Vec`, i.e. the
lexicographic order on name lists), then a stable sort (`sort_by`) by
`type_identifier`.  Both passes are modelled by the stable `insertionSort`;
the properties proved below depend only on the second pass being stable and on
the first pass sorting by `names`, matching the source. -/
def sortConversations (conversations : List NormalizedConversation) :
    List NormalizedConversation :=
  (conversations.insertionSort (fun a b => a.names ≤ b.names)).insertionSort
    (fun a b => a.type_identifier ≤ b.type_identifier)

/-- The post-normalization pipeline of `ls` (src/main.rs lines 519-549):
optional substring filter, then per-record name sort, then the record sort. -/
def lsPipelinePost (substring : List Char)
    (conversations : List NormalizedConversation) : List NormalizedConversation :=
  sortConversations ((filterConversations substring conversations).map sortNamesInConversation)

/-- The whole listing operation of `ls` (src/main.rs lines 451-549) up to
rendering: paginate, normalize, filter, sort.  A failure anywhere yields
`Except.error` and no record list at all. -/
def lsConversations {ε : Type} (fetch : List Char → Except ε Conversations)
    (get_user : List Char → Except ε (List Char)) (substring : List Char)
    (fuel : Nat) : Option (Except ε (List NormalizedConversation)) :=
  match get_conversations fetch fuel with
  | none => none
  | some (Except.error e) => some (Except.error e)
  | some (Except.ok (raw, _)) =>
      match normalizeConversations get_user raw with
      | Except.error e => some (Except.error e)
      | Except.ok normalized => some (Except.ok (lsPipelinePost substring normalized))

/-- A JSON value, for the response-body decode of the page fetcher. -/
inductive Json where
  | null : Json
  | bool : Bool → Json
  | num : Int → Json
  | str : List Char → Json
  | arr : List Json → Json
  | obj : List (List Char × Json) → Json

/-- First field of an object with the given key, as serde reads it. -/
def Json.getField : Json → List Char → Option Json
  | Json.obj fields, key => fields.lookup key
  | _, _ => none

def Json.asBool : Json → Option Bool
  | Json.bool b => some b
  | _ => none

def Json.asStr : Json → Option (List Char)
  | Json.str s => some s
  | _ => none

/-- Structural decode of `struct ConversationsError` (src/main.rs lines
119-123): an object carrying a boolean `ok` field and a string `error` field
(extra fields are ignored, as serde does by default). -/
def decodeConversationsError (j : Json) : Option ConversationsError :=
  match j.getField (str "ok") with
  | none => none
  | some okField =>
      match okField.asBool with
      | none => none
      | some okValue =>
          match j.getField (str "error") with
          | none => none
          | some errField =>
              match errField.asStr with
              | none => none
              | some code => some { ok := okValue, error := code }

/-- The untagged decode of `enum ConversationsKind` (src/main.rs lines
112-117): `#[serde(untagged)]` tries the variants in declaration order, so the
success shape `Conversations` is attempted first and the error shape is the
fallback — the first structural match wins.  The decode of the large success
schema is a parameter (`decodeSuccess`); the claims proved about this function
do not depend on its internals. -/
def decodeConversationsKind (decodeSuccess : Json → Option Conversations) (j : Json) :
    Option ConversationsKind :=
  match decodeSuccess j with
  | some conversations => some (ConversationsKind.Conversations conversations)
  | none =>
      match decodeConversationsError j with
      | some err => some (ConversationsKind.Error err)
      | none => none

/-- Errors of the page fetcher visible after the decode step, named as in the
spec's taxonomy: an API-reported error carries the platform's code string; a
body matching neither shape is a decode (schema drift) failure. -/
inductive PageError where
  | ApiError : List Char → PageError
  | DecodeError : PageError
deriving DecidableEq

/-- The decode-and-dispatch tail of `get_conversations_page` (src/main.rs
lines 299-304): decode the body, turn the error variant into a failure carrying
the platform's error code (`Err(error)?`, whose display is exactly that code),
and return the success payload unchanged. -/
def get_conversations_page_decode (decodeSuccess : Json → Option Conversations)
    (body : Json) : Except PageError Conversations :=
  match decodeConversationsKind decodeSuccess body with
  | none => Except.error PageError.DecodeError
  | some (ConversationsKind.Error err) => Except.error (PageError.ApiError err.error)
  | some (ConversationsKind.Conversations conversations) => Except.ok conversations

/-- The spec's type-marker mapping, stated in the spec's own words (§4.3):
public channel always "#"; private channel whose name starts with "mpdm-"
always "&"; private channel otherwise always "!"; direct message always "@".
Used to compare the normalizer against the spec (refinement). -/
def specTypeMarker : Conversation → List Char
  | Conversation.PublicChannel _ => str "#"
  | Conversation.PrivateChannel convo =>
      if "mpdm-".data.isPrefixOf convo.name then str "&" else str "!"
  | Conversation.Im _ => str "@"

/-- The raw record's archived flag, common to all three variants. -/
def conversationIsArchived : Conversation → Bool
  | Conversation.PublicChannel convo => convo.is_archived
  | Conversation.PrivateChannel convo => convo.is_archived
  | Conversation.Im convo => convo.is_archived

/-- Whether a normalized record carries the given type marker. -/
def hasMarker (m : List Char) (x : NormalizedConversation) : Bool :=
  x.type_identifier = m

/-- The net record order produced by the two sort passes: strictly earlier
type marker, or equal markers and name lists in ascending order. -/
def conversationOrder (a b : NormalizedConversation) : Prop :=
  a.type_identifier < b.type_identifier ∨
    (a.type_identifier = b.type_identifier ∧ a.names ≤ b.names)

theorem takeWhile_append_sat {p : Char → Bool} :
    ∀ {l₁ l₂ : List Char}, (∀ x ∈ l₁, p x = true) →
      (l₁ ++ l₂).takeWhile p = l₁ ++ l₂.takeWhile p := by
  intro l₁ l₂ h
  induction l₁ with
  | nil => simp
  | cons a t ih =>
      simp [List.takeWhile_cons, h a (by simp), ih (fun x hx => h x (by simp [hx]))]

theorem dropWhile_append_sat {p : Char → Bool} :
    ∀ {l₁ l₂ : List Char}, (∀ x ∈ l₁, p x = true) →
      (l₁ ++ l₂).dropWhile p = l₂.dropWhile p := by
  intro l₁ l₂ h
  induction l₁ with
  | nil => simp
  | cons a t ih =>
      simp [List.dropWhile_cons, h a (by simp), ih (fun x hx => h x (by simp [hx]))]

/-- The split `rsplitn(2, sep)` yields at least one part on every input. -/
theorem rsplitn2_ne_nil (sep : Char) (s : List Char) : rsplitn2 sep s ≠ [] := by
  unfold rsplitn2
  split <;> simp

/-- Without the separator, `rsplitn(2, sep)` yields the whole string alone. -/
theorem rsplitn2_of_not_mem {sep : Char} {s : List Char} (h : sep ∉ s) :
    rsplitn2 sep s = [s] := by
  unfold rsplitn2
  rw [List.span_eq_take_drop]
  have hdrop : s.reverse.dropWhile (fun c => decide (c ≠ sep)) = [] := by
    rw [List.dropWhile_eq_nil_iff]
    intro x hx
    have hxs : x ∈ s := List.mem_reverse.mp hx
    have hne : x ≠ sep := fun e => h (e ▸ hxs)
    simpa using hne
  rw [hdrop]

/-- With a separator-free `suffix`, `rsplitn(2, sep)` on `core ++ sep :: suffix`
yields the suffix first, then the part before the last separator. -/
theorem rsplitn2_split {sep : Char} (core : List Char) {suffix : List Char}
    (h : sep ∉ suffix) : rsplitn2 sep (core ++ sep :: suffix) = [suffix, core] := by
  unfold rsplitn2
  rw [List.span_eq_take_drop]
  have hrev : (core ++ sep :: suffix).reverse = suffix.reverse ++ sep :: core.reverse := by
    simp
  have hsat : ∀ x ∈ suffix.reverse, (decide (x ≠ sep)) = true := by
    intro x hx
    have hxs : x ∈ suffix := List.mem_reverse.mp hx
    have hne : x ≠ sep := fun e => h (e ▸ hxs)
    simpa using hne
  have hsep : (decide (sep ≠ sep)) = false := by simp
  rw [hrev, takeWhile_append_sat hsat, dropWhile_append_sat hsat,
    List.takeWhile_cons_of_neg (by simp), List.dropWhile_cons_of_neg (by simp)]
  simp

/-- C1: for a private-channel name starting with "mpdm-", the normalizer strips
the 5-character prefix, right-splits the remainder on "-" into at most two
parts keeping the one before the trailing disambiguation suffix, and splits the
retained part on "--"; in particular "mpdm-alice--bob--carol-1" decodes to the
member fragments "alice", "bob", "carol" in that order. -/
theorem mpdm_decode_correct :
    (∀ (core suffix : List Char), '-' ∉ suffix →
        decodeMpdmNames ("mpdm-".data ++ (core ++ '-' :: suffix)) = splitOnPair '-' '-' core) ∧
    decodeMpdmNames (str "mpdm-alice--bob--carol-1") = [str "alice", str "bob", str "carol"] ∧
    (∀ {ε : Type} (get_user : List Char → Except ε (List Char)) (convo : PrivateChannel),
        convo.name = str "mpdm-alice--bob--carol-1" →
        normalizeConversation get_user (Conversation.PrivateChannel convo) =
          Except.ok
            { id := convo.id
              type_identifier := str "&"
              names := [str "alice", str "bob", str "carol"]
              is_archived := convo.is_archived
              is_deleted := false }) := by
  refine ⟨?_, by decide, ?_⟩
  · intro core suffix h
    unfold decodeMpdmNames decodeMpdmNames?
    have h5 : ("mpdm-".data).length = 5 := by decide
    rw [← h5, List.drop_left, rsplitn2_split core h]
    rfl
  · intro ε get_user convo hname
    simp only [normalizeConversation, hname]
    rw [if_pos (by decide)]
    rw [show decodeMpdmNames (str "mpdm-alice--bob--carol-1") =
      [str "alice", str "bob", str "carol"] from by decide]

/-- Witness for `mpdm_decode_correct` at concrete inputs. -/
theorem mpdm_decode_correct_witness :
    ('-' ∉ str "1") ∧
    decodeMpdmNames ("mpdm-".data ++ (str "alice--bob--carol" ++ '-' :: str "1")) =
      splitOnPair '-' '-' (str "alice--bob--carol") := by
  exact ⟨by decide, mpdm_decode_correct.1 (str "alice--bob--carol") (str "1") (by decide)⟩

/-- C10: the decode of a multi-person-DM name is total and panic-free: the
right-split always yields at least one part, so the source's `unwrap` on the
last part never fails; and when the stripped remainder contains no "-" at all,
no suffix is discarded — the whole remainder is split on "--". -/
theorem mpdm_decode_total :
    (∀ (sep : Char) (s : List Char), rsplitn2 sep s ≠ []) ∧
    (∀ name : List Char, (decodeMpdmNames? name).isSome = true) ∧
    (∀ name : List Char, '-' ∉ name.drop 5 →
        decodeMpdmNames? name = some (splitOnPair '-' '-' (name.drop 5))) := by
  refine ⟨rsplitn2_ne_nil, ?_, ?_⟩
  · intro name
    unfold decodeMpdmNames?
    obtain ⟨x, hx⟩ := Option.isSome_iff_exists.mp
      (List.getLast?_isSome.mpr (rsplitn2_ne_nil '-' (name.drop 5)))
    rw [hx]
    rfl
  · intro name h
    unfold decodeMpdmNames?
    rw [rsplitn2_of_not_mem h]
    rfl

/-- Witness for `mpdm_decode_total` at a concrete input. -/
theorem mpdm_decode_total_witness :
    ('-' ∉ (str "mpdm-ab").drop 5) ∧
    decodeMpdmNames? (str "mpdm-ab") = some (splitOnPair '-' '-' ((str "mpdm-ab").drop 5)) :=
  ⟨by decide, mpdm_decode_total.2.2 (str "mpdm-ab") (by decide)⟩

/-- C3: type-marker derivation is total and exclusive — every normalized
record's marker equals the spec mapping, a pure function of variant plus
name-prefix, and is one of the four markers. -/
theorem type_marker_total_exclusive {ε : Type}
    (get_user : List Char → Except ε (List Char)) (c : Conversation)
    (n : NormalizedConversation) (h : normalizeConversation get_user c = Except.ok n) :
    n.type_identifier = specTypeMarker c ∧
      specTypeMarker c ∈ [str "#", str "!", str "&", str "@"] := by
  cases c with
  | PublicChannel convo =>
      simp only [normalizeConversation, Except.ok.injEq] at h
      subst h
      exact ⟨rfl, by simp [specTypeMarker]⟩
  | PrivateChannel convo =>
      simp only [normalizeConversation] at h
      by_cases hp : "mpdm-".data.isPrefixOf convo.name
      · rw [if_pos hp] at h
        simp only [Except.ok.injEq] at h
        subst h
        simp [specTypeMarker, hp]
      · rw [if_neg hp] at h
        simp only [Except.ok.injEq] at h
        subst h
        simp [specTypeMarker, hp]
  | Im convo =>
      simp only [normalizeConversation] at h
      cases hg : get_user convo.user with
      | error e => rw [hg] at h; cases h
      | ok name =>
          rw [hg] at h
          simp only [Except.ok.injEq] at h
          subst h
          exact ⟨rfl, by simp [specTypeMarker]⟩

/-- Witness for `type_marker_total_exclusive` at a concrete public channel. -/
theorem type_marker_total_exclusive_witness :
    (normalizeConversation (fun _ => (Except.ok (str "bob") : Except Unit (List Char)))
        (Conversation.PublicChannel ⟨str "C1", str "general", 0, false⟩) =
      Except.ok ⟨str "C1", str "#", [str "general"], false, false⟩) ∧
    (⟨str "C1", str "#", [str "general"], false, false⟩ :
        NormalizedConversation).type_identifier =
      specTypeMarker (Conversation.PublicChannel ⟨str "C1", str "general", 0, false⟩) ∧
    specTypeMarker (Conversation.PublicChannel ⟨str "C1", str "general", 0, false⟩) ∈
      [str "#", str "!", str "&", str "@"] :=
  ⟨rfl,
    (type_marker_total_exclusive (fun _ => (Except.ok (str "bob") : Except Unit (List Char)))
      (Conversation.PublicChannel ⟨str "C1", str "general", 0, false⟩)
      ⟨str "C1", str "#", [str "general"], false, false⟩ rfl).1,
    (type_marker_total_exclusive (fun _ => (Except.ok (str "bob") : Except Unit (List Char)))
      (Conversation.PublicChannel ⟨str "C1", str "general", 0, false⟩)
      ⟨str "C1", str "#", [str "general"], false, false⟩ rfl).2⟩

/-- C7: `is_deleted` is true exactly for direct messages whose counterpart
account was deleted (false for public channels, private channels and
multi-person DMs), and `is_archived` is inherited unchanged from the raw
record in every variant. -/
theorem deleted_archived_flags {ε : Type}
    (get_user : List Char → Except ε (List Char)) (c : Conversation)
    (n : NormalizedConversation) (h : normalizeConversation get_user c = Except.ok n) :
    (n.is_deleted = true ↔
      ∃ convo : Im, c = Conversation.Im convo ∧ convo.is_user_deleted = true) ∧
    n.is_archived = conversationIsArchived c := by
  cases c with
  | PublicChannel convo =>
      simp only [normalizeConversation, Except.ok.injEq] at h
      subst h
      refine ⟨?_, rfl⟩
      constructor
      · intro hf
        simp at hf
      · rintro ⟨im, him, _⟩
        cases him
  | PrivateChannel convo =>
      simp only [normalizeConversation] at h
      by_cases hp : "mpdm-".data.isPrefixOf convo.name
      · rw [if_pos hp] at h
        simp only [Except.ok.injEq] at h
        subst h
        refine ⟨?_, rfl⟩
        constructor
        · intro hf
          simp at hf
        · rintro ⟨im, him, _⟩
          cases him
      · rw [if_neg hp] at h
        simp only [Except.ok.injEq] at h
        subst h
        refine ⟨?_, rfl⟩
        constructor
        · intro hf
          simp at hf
        · rintro ⟨im, him, _⟩
          cases him
  | Im convo =>
      simp only [normalizeConversation] at h
      cases hg : get_user convo.user with
      | error e => rw [hg] at h; cases h
      | ok name =>
          rw [hg] at h
          simp only [Except.ok.injEq] at h
          subst h
          refine ⟨⟨fun hd => ⟨convo, rfl, hd⟩, ?_⟩, rfl⟩
          rintro ⟨im, him, hdel⟩
          cases him
          exact hdel

/-- Witness for `deleted_archived_flags` at a concrete direct message. -/
theorem deleted_archived_flags_witness :
    (normalizeConversation (fun _ => (Except.ok (str "bob") : Except Unit (List Char)))
        (Conversation.Im ⟨str "D1", 0, true, str "U1", true⟩) =
      Except.ok ⟨str "D1", str "@", [str "bob"], true, true⟩) ∧
    ((⟨str "D1", str "@", [str "bob"], true, true⟩ : NormalizedConversation).is_deleted = true ↔
      ∃ convo : Im, Conversation.Im ⟨str "D1", 0, true, str "U1", true⟩ = Conversation.Im convo ∧
        convo.is_user_deleted = true) ∧
    (⟨str "D1", str "@", [str "bob"], true, true⟩ : NormalizedConversation).is_archived =
      conversationIsArchived (Conversation.Im ⟨str "D1", 0, true, str "U1", true⟩) :=
  ⟨rfl,
    (deleted_archived_flags (fun _ => (Except.ok (str "bob") : Except Unit (List Char)))
      (Conversation.Im ⟨str "D1", 0, true, str "U1", true⟩)
      ⟨str "D1", str "@", [str "bob"], true, true⟩ rfl).1,
    (deleted_archived_flags (fun _ => (Except.ok (str "bob") : Except Unit (List Char)))
      (Conversation.Im ⟨str "D1", 0, true, str "U1", true⟩)
      ⟨str "D1", str "@", [str "bob"], true, true⟩ rfl).2⟩

theorem splitOnPairAux_ne_nil (c0 c1 : Char) :
    ∀ (n : Nat) (s acc : List Char), s.length ≤ n → splitOnPairAux c0 c1 acc s ≠ [] := by
  intro n
  induction n with
  | zero =>
      intro s acc h
      have : s = [] := List.eq_nil_of_length_eq_zero (Nat.le_zero.mp h)
      subst this
      simp [splitOnPairAux]
  | succ n ih =>
      intro s acc h
      match s with
      | [] => simp [splitOnPairAux]
      | [c] => simp [splitOnPairAux]
      | c :: c2 :: rest =>
          simp only [splitOnPairAux]
          split
          · simp
          · apply ih
            simp only [List.length_cons] at h ⊢
            omega

/-- Rust `split` always yields at least one fragment. -/
theorem splitOnPair_ne_nil (c0 c1 : Char) (s : List Char) : splitOnPair c0 c1 s ≠ [] :=
  splitOnPairAux_ne_nil c0 c1 s.length s [] le_rfl

theorem decodeMpdmNames_ne_nil (name : List Char) : decodeMpdmNames name ≠ [] := by
  unfold decodeMpdmNames decodeMpdmNames?
  obtain ⟨x, hx⟩ := Option.isSome_iff_exists.mp
    (List.getLast?_isSome.mpr (rsplitn2_ne_nil '-' (name.drop 5)))
  rw [hx]
  exact splitOnPair_ne_nil '-' '-' x

theorem mem_of_mem_filterConversations {substring : List Char}
    {l : List NormalizedConversation} {x : NormalizedConversation}
    (h : x ∈ filterConversations substring l) : x ∈ l := by
  unfold filterConversations at h
  split at h
  · exact (List.mem_filter.mp h).1
  · exact h

theorem mem_lsPipelinePost {substring : List Char} {l : List NormalizedConversation}
    {x : NormalizedConversation} (h : x ∈ lsPipelinePost substring l) :
    ∃ y, y ∈ l ∧ x = sortNamesInConversation y := by
  unfold lsPipelinePost sortConversations at h
  rw [List.mem_insertionSort, List.mem_insertionSort] at h
  obtain ⟨y, hy, hxy⟩ := List.mem_map.mp h
  exact ⟨y, mem_of_mem_filterConversations hy, hxy.symm⟩

/-- C8: the `names` of every normalized record form a non-empty sequence —
exactly one name for public channels, non-multi-person private channels and
direct messages, at least one member fragment for multi-person DMs — and
non-emptiness is preserved by the filter and the sorts. -/
theorem names_nonempty_invariant :
    (∀ {ε : Type} (get_user : List Char → Except ε (List Char)) (c : Conversation)
        (n : NormalizedConversation),
        normalizeConversation get_user c = Except.ok n → n.names ≠ []) ∧
    (∀ {ε : Type} (get_user : List Char → Except ε (List Char)) (convo : PublicChannel)
        (n : NormalizedConversation),
        normalizeConversation get_user (Conversation.PublicChannel convo) = Except.ok n →
        n.names.length = 1) ∧
    (∀ {ε : Type} (get_user : List Char → Except ε (List Char)) (convo : PrivateChannel)
        (n : NormalizedConversation),
        ("mpdm-".data.isPrefixOf convo.name) = false →
        normalizeConversation get_user (Conversation.PrivateChannel convo) = Except.ok n →
        n.names.length = 1) ∧
    (∀ {ε : Type} (get_user : List Char → Except ε (List Char)) (convo : Im)
        (n : NormalizedConversation),
        normalizeConversation get_user (Conversation.Im convo) = Except.ok n →
        n.names.length = 1) ∧
    (∀ {ε : Type} (get_user : List Char → Except ε (List Char)) (convo : PrivateChannel)
        (n : NormalizedConversation),
        ("mpdm-".data.isPrefixOf convo.name) = true →
        normalizeConversation get_user (Conversation.PrivateChannel convo) = Except.ok n →
        1 ≤ n.names.length) ∧
    (∀ (substring : List Char) (l : List NormalizedConversation)
        (x : NormalizedConversation),
        (∀ y ∈ l, y.names ≠ []) → x ∈ lsPipelinePost substring l → x.names ≠ []) := by
  have hone : ∀ {ε : Type} (get_user : List Char → Except ε (List Char)) (c : Conversation)
      (n : NormalizedConversation),
      normalizeConversation get_user c = Except.ok n → n.names ≠ [] := by
    intro ε get_user c n h
    cases c with
    | PublicChannel convo =>
        simp only [normalizeConversation, Except.ok.injEq] at h
        subst h
        simp
    | PrivateChannel convo =>
        simp only [normalizeConversation] at h
        by_cases hp : "mpdm-".data.isPrefixOf convo.name
        · rw [if_pos hp] at h
          simp only [Except.ok.injEq] at h
          subst h
          exact decodeMpdmNames_ne_nil convo.name
        · rw [if_neg hp] at h
          simp only [Except.ok.injEq] at h
          subst h
          simp
    | Im convo =>
        simp only [normalizeConversation] at h
        cases hg : get_user convo.user with
        | error e => rw [hg] at h; cases h
        | ok name =>
            rw [hg] at h
            simp only [Except.ok.injEq] at h
            subst h
            simp
  refine ⟨hone, ?_, ?_, ?_, ?_, ?_⟩
  · intro ε get_user convo n h
    simp only [normalizeConversation, Except.ok.injEq] at h
    subst h
    rfl
  · intro ε get_user convo n hp h
    simp only [normalizeConversation] at h
    rw [if_neg (by simp [hp])] at h
    simp only [Except.ok.injEq] at h
    subst h
    rfl
  · intro ε get_user convo n h
    simp only [normalizeConversation] at h
    cases hg : get_user convo.user with
    | error e => rw [hg] at h; cases h
    | ok name =>
        rw [hg] at h
        simp only [Except.ok.injEq] at h
        subst h
        rfl
  · intro ε get_user convo n hp h
    simp only [normalizeConversation] at h
    rw [if_pos hp] at h
    simp only [Except.ok.injEq] at h
    subst h
    exact List.length_pos.mpr (decodeMpdmNames_ne_nil convo.name)
  · intro substring l x hall hx
    obtain ⟨y, hyl, rfl⟩ := mem_lsPipelinePost hx
    intro he
    apply hall y hyl
    have hlen := congrArg List.length he
    rw [show (sortNamesInConversation y).names = y.names.insertionSort (· ≤ ·) from rfl] at hlen
    rw [List.length_insertionSort] at hlen
    exact List.length_eq_zero.mp hlen

/-- Witness for `names_nonempty_invariant` at concrete inputs. -/
theorem names_nonempty_invariant_witness :
    (normalizeConversation (fun _ => (Except.ok (str "bob") : Except Unit (List Char)))
        (Conversation.PublicChannel ⟨str "C1", str "general", 0, false⟩) =
      Except.ok ⟨str "C1", str "#", [str "general"], false, false⟩) ∧
    (⟨str "C1", str "#", [str "general"], false, false⟩ :
        NormalizedConversation).names.length = 1 ∧
    ((⟨str "C1", str "#", [str "general"], false, false⟩ :
        NormalizedConversation).names ≠ []) :=
  ⟨rfl,
    names_nonempty_invariant.2.1 (fun _ => (Except.ok (str "bob") : Except Unit (List Char)))
      ⟨str "C1", str "general", 0, false⟩
      ⟨str "C1", str "#", [str "general"], false, false⟩ rfl,
    names_nonempty_invariant.1 (fun _ => (Except.ok (str "bob") : Except Unit (List Char)))
      (Conversation.PublicChannel ⟨str "C1", str "general", 0, false⟩)
      ⟨str "C1", str "#", [str "general"], false, false⟩ rfl⟩

theorem strContains_iff_infix {haystack needle : List Char} :
    strContains haystack needle = true ↔ needle <:+: haystack := by
  unfold strContains
  rw [List.any_eq_true]
  constructor
  · rintro ⟨t, ht, hpre⟩
    exact List.infix_iff_prefix_suffix.mpr
      ⟨t, List.isPrefixOf_iff_prefix.mp hpre, (List.mem_tails t haystack).mp ht⟩
  · intro h
    obtain ⟨t, hpre, hsuf⟩ := List.infix_iff_prefix_suffix.mp h
    exact ⟨t, (List.mem_tails t haystack).mpr hsuf, List.isPrefixOf_iff_prefix.mpr hpre⟩

/-- C5: with a non-empty substring the filter retains exactly the records in
which some entry of `names` contains the substring (case-sensitive substring
containment); with an empty substring filtering is the identity. -/
theorem filter_retains_matching :
    (∀ (substring : List Char) (l : List NormalizedConversation)
        (c : NormalizedConversation), substring ≠ [] →
        (c ∈ filterConversations substring l ↔
          c ∈ l ∧ ∃ name ∈ c.names, substring <:+: name)) ∧
    (∀ l : List NormalizedConversation, filterConversations [] l = l) := by
  constructor
  · intro substring l c hsub
    unfold filterConversations
    rw [if_pos hsub]
    rw [List.mem_filter]
    unfold conversationMatches
    rw [List.any_eq_true]
    constructor
    · rintro ⟨hc, name, hname, hcont⟩
      exact ⟨hc, name, hname, strContains_iff_infix.mp hcont⟩
    · rintro ⟨hc, name, hname, hinf⟩
      exact ⟨hc, name, hname, strContains_iff_infix.mpr hinf⟩
  · intro l
    unfold filterConversations
    simp

/-- Witness for `filter_retains_matching` at the spec's "eng" example. -/
theorem filter_retains_matching_witness :
    (str "eng" ≠ ([] : List Char)) ∧
    ((⟨str "C1", str "#", [str "engineering"], false, false⟩ : NormalizedConversation) ∈
        filterConversations (str "eng")
          [⟨str "C1", str "#", [str "engineering"], false, false⟩,
            ⟨str "C2", str "#", [str "random"], false, false⟩] ↔
      (⟨str "C1", str "#", [str "engineering"], false, false⟩ : NormalizedConversation) ∈
          [⟨str "C1", str "#", [str "engineering"], false, false⟩,
            ⟨str "C2", str "#", [str "random"], false, false⟩] ∧
        ∃ name ∈ (⟨str "C1", str "#", [str "engineering"], false, false⟩ :
            NormalizedConversation).names, str "eng" <:+: name) ∧
    filterConversations (str "eng")
        [⟨str "C1", str "#", [str "engineering"], false, false⟩,
          ⟨str "C2", str "#", [str "random"], false, false⟩] =
      [⟨str "C1", str "#", [str "engineering"], false, false⟩] :=
  ⟨by decide,
    filter_retains_matching.1 (str "eng")
      [⟨str "C1", str "#", [str "engineering"], false, false⟩,
        ⟨str "C2", str "#", [str "random"], false, false⟩]
      ⟨str "C1", str "#", [str "engineering"], false, false⟩ (by decide),
    by decide⟩

theorem get_conversations_loop_succ {ε : Type} (fetch : List Char → Except ε Conversations)
    (fuel : Nat) (cursor : List Char) (acc : List Conversation)
    (trace : List (List Char)) :
    get_conversations_loop fetch (fuel + 1) cursor acc trace =
      match fetch cursor with
      | Except.error e => some (Except.error e)
      | Except.ok result =>
          if result.response_metadata.next_cursor = [] then
            some (Except.ok (acc ++ result.channels, trace ++ [cursor]))
          else
            get_conversations_loop fetch fuel result.response_metadata.next_cursor
              (acc ++ result.channels) (trace ++ [cursor]) := rfl

/-- C2: the paginator starts from the empty cursor, appends each page's
records in order, and repeats while the returned cursor is non-empty; for
pages whose cursors run `c1, c2, ""` it performs exactly the three fetches
at cursors `"", c1, c2`, returns the concatenation of the three record lists
in page order, and never fetches the same cursor twice. -/
theorem paginator_three_pages {ε : Type}
    (fetch : List Char → Except ε Conversations) (p1 p2 p3 : Conversations)
    (c1 c2 : List Char)
    (h1 : fetch [] = Except.ok p1) (hc1 : p1.response_metadata.next_cursor = c1)
    (h2 : fetch c1 = Except.ok p2) (hc2 : p2.response_metadata.next_cursor = c2)
    (h3 : fetch c2 = Except.ok p3) (hc3 : p3.response_metadata.next_cursor = [])
    (hne1 : c1 ≠ []) (hne2 : c2 ≠ []) (n : Nat) :
    get_conversations fetch (n + 3) =
      some (Except.ok (p1.channels ++ p2.channels ++ p3.channels,
        [[], c1, c2])) ∧
    ([[], c1, c2] : List (List Char)).Nodup := by
  have hcc : c1 ≠ c2 := by
    intro hEq
    have h2' := h2
    rw [hEq] at h2'
    have hp : p2 = p3 := Except.ok.inj (h2'.symm.trans h3)
    apply hne2
    rw [← hc2, hp, hc3]
  constructor
  · show get_conversations_loop fetch (n + 3) [] [] [] = _
    rw [show n + 3 = (n + 2) + 1 from rfl, get_conversations_loop_succ, h1]
    dsimp only
    rw [hc1, if_neg hne1]
    rw [show n + 2 = (n + 1) + 1 from rfl, get_conversations_loop_succ, h2]
    dsimp only
    rw [hc2, if_neg hne2]
    rw [get_conversations_loop_succ, h3]
    dsimp only
    rw [hc3]
    simp
  · exact List.nodup_cons.mpr ⟨by simp [Ne.symm hne1, Ne.symm hne2],
      List.nodup_cons.mpr ⟨by simp [hcc], List.nodup_singleton _⟩⟩

/-- Witness for `paginator_three_pages` on a concrete three-page server. -/
theorem paginator_three_pages_witness :
    get_conversations
        (fun cursor =>
          if cursor = [] then
            (Except.ok ⟨true, none,
              [Conversation.PublicChannel ⟨str "C1", str "one", 0, false⟩],
              ⟨str "A"⟩⟩ : Except (List Char) Conversations)
          else if cursor = str "A" then
            Except.ok ⟨true, none,
              [Conversation.PublicChannel ⟨str "C2", str "two", 0, false⟩], ⟨str "B"⟩⟩
          else if cursor = str "B" then
            Except.ok ⟨true, none,
              [Conversation.PublicChannel ⟨str "C3", str "three", 0, false⟩], ⟨[]⟩⟩
          else Except.error (str "bad_cursor")) 3 =
      some (Except.ok
        ([Conversation.PublicChannel ⟨str "C1", str "one", 0, false⟩] ++
            [Conversation.PublicChannel ⟨str "C2", str "two", 0, false⟩] ++
            [Conversation.PublicChannel ⟨str "C3", str "three", 0, false⟩],
          [[], str "A", str "B"])) ∧
    ([[], str "A", str "B"] : List (List Char)).Nodup := by
  exact paginator_three_pages
    (fun cursor =>
      if cursor = [] then
        (Except.ok ⟨true, none,
          [Conversation.PublicChannel ⟨str "C1", str "one", 0, false⟩],
          ⟨str "A"⟩⟩ : Except (List Char) Conversations)
      else if cursor = str "A" then
        Except.ok ⟨true, none,
          [Conversation.PublicChannel ⟨str "C2", str "two", 0, false⟩], ⟨str "B"⟩⟩
      else if cursor = str "B" then
        Except.ok ⟨true, none,
          [Conversation.PublicChannel ⟨str "C3", str "three", 0, false⟩], ⟨[]⟩⟩
      else Except.error (str "bad_cursor"))
    ⟨true, none, [Conversation.PublicChannel ⟨str "C1", str "one", 0, false⟩], ⟨str "A"⟩⟩
    ⟨true, none, [Conversation.PublicChannel ⟨str "C2", str "two", 0, false⟩], ⟨str "B"⟩⟩
    ⟨true, none, [Conversation.PublicChannel ⟨str "C3", str "three", 0, false⟩], ⟨[]⟩⟩
    (str "A") (str "B") rfl rfl rfl rfl rfl rfl (by decide) (by decide) 0

theorem normalizeConversations_append_error {ε : Type}
    (get_user : List Char → Except ε (List Char)) (raw₁ raw₂ : List Conversation)
    (c : Conversation) (pre : List NormalizedConversation) (e : ε)
    (hpre : normalizeConversations get_user raw₁ = Except.ok pre)
    (hfail : normalizeConversation get_user c = Except.error e) :
    normalizeConversations get_user (raw₁ ++ c :: raw₂) = Except.error e := by
  induction raw₁ generalizing pre with
  | nil =>
      simp only [List.nil_append, normalizeConversations, hfail]
  | cons a t ih =>
      simp only [normalizeConversations] at hpre
      rw [List.cons_append]
      simp only [normalizeConversations]
      cases ha : normalizeConversation get_user a with
      | error e' => rw [ha] at hpre; cases hpre
      | ok m =>
          rw [ha] at hpre
          dsimp only at hpre ⊢
          cases ht : normalizeConversations get_user t with
          | error e' => rw [ht] at hpre; cases hpre
          | ok pres =>
              rw [ih pres ht]

/-- C6: a failing user lookup for a direct-message record makes the whole
listing operation fail with that error — no record list is produced, and
conversations normalized before the failure are discarded. -/
theorem resolver_failure_aborts {ε : Type}
    (fetch : List Char → Except ε Conversations)
    (get_user : List Char → Except ε (List Char)) (substring : List Char)
    (fuel : Nat) (raw₁ raw₂ : List Conversation) (convo : Im)
    (trace : List (List Char)) (pre : List NormalizedConversation) (e : ε)
    (hfetch : get_conversations fetch fuel =
      some (Except.ok (raw₁ ++ Conversation.Im convo :: raw₂, trace)))
    (hpre : normalizeConversations get_user raw₁ = Except.ok pre)
    (hfail : get_user convo.user = Except.error e) :
    lsConversations fetch get_user substring fuel = some (Except.error e) := by
  have hfailc : normalizeConversation get_user (Conversation.Im convo) = Except.error e := by
    simp only [normalizeConversation, hfail]
  unfold lsConversations
  rw [hfetch]
  dsimp only
  rw [normalizeConversations_append_error get_user raw₁ raw₂ _ pre e hpre hfailc]

/-- Witness for `resolver_failure_aborts` on a concrete one-page listing. -/
theorem resolver_failure_aborts_witness :
    lsConversations
        (fun _ => (Except.ok ⟨true, none,
          [Conversation.Im ⟨str "D1", 0, false, str "U1", false⟩],
          ⟨[]⟩⟩ : Except (List Char) Conversations))
        (fun _ => Except.error (str "user_not_found")) (str "") 1 =
      some (Except.error (str "user_not_found")) := by
  exact resolver_failure_aborts _ _ (str "") 1 [] []
    ⟨str "D1", 0, false, str "U1", false⟩ [[]] [] (str "user_not_found") rfl rfl rfl

/-- C9: the page fetcher decodes the response body by attempting the
success-payload shape first and falling back to the error shape (first
structural match wins); on an error-shaped body the fetch fails with an error
carrying exactly the platform's reported code string, and on a success-shaped
body the payload is returned unchanged. -/
theorem page_decode_untagged :
    (∀ (decodeSuccess : Json → Option Conversations) (j : Json)
        (payload : Conversations), decodeSuccess j = some payload →
        get_conversations_page_decode decodeSuccess j = Except.ok payload) ∧
    (∀ (decodeSuccess : Json → Option Conversations) (j : Json)
        (err : ConversationsError), decodeSuccess j = none →
        decodeConversationsError j = some err →
        get_conversations_page_decode decodeSuccess j =
          Except.error (PageError.ApiError err.error)) ∧
    (∀ (decodeSuccess : Json → Option Conversations) (j : Json)
        (okValue : Bool) (code : List Char), decodeSuccess j = none →
        j.getField (str "ok") = some (Json.bool okValue) →
        j.getField (str "error") = some (Json.str code) →
        get_conversations_page_decode decodeSuccess j =
          Except.error (PageError.ApiError code)) := by
  have hsucc : ∀ (decodeSuccess : Json → Option Conversations) (j : Json)
      (payload : Conversations), decodeSuccess j = some payload →
      get_conversations_page_decode decodeSuccess j = Except.ok payload := by
    intro decodeSuccess j payload h
    unfold get_conversations_page_decode decodeConversationsKind
    rw [h]
  have herr : ∀ (decodeSuccess : Json → Option Conversations) (j : Json)
      (err : ConversationsError), decodeSuccess j = none →
      decodeConversationsError j = some err →
      get_conversations_page_decode decodeSuccess j =
        Except.error (PageError.ApiError err.error) := by
    intro decodeSuccess j err h1 h2
    unfold get_conversations_page_decode decodeConversationsKind
    rw [h1]
    dsimp only
    rw [h2]
  refine ⟨hsucc, herr, ?_⟩
  intro decodeSuccess j okValue code h1 hok hcode
  have h2 : decodeConversationsError j = some ⟨okValue, code⟩ := by
    unfold decodeConversationsError
    rw [hok]
    dsimp only [Json.asBool]
    rw [hcode]
    rfl
  exact herr decodeSuccess j ⟨okValue, code⟩ h1 h2

/-- Witness for `page_decode_untagged` on a concrete error body. -/
theorem page_decode_untagged_witness :
    get_conversations_page_decode (fun _ => (none : Option Conversations))
        (Json.obj [(str "ok", Json.bool false),
          (str "error", Json.str (str "invalid_auth"))]) =
      Except.error (PageError.ApiError (str "invalid_auth")) := by
  exact page_decode_untagged.2.2 (fun _ => none)
    (Json.obj [(str "ok", Json.bool false),
      (str "error", Json.str (str "invalid_auth"))]) false (str "invalid_auth")
    rfl rfl rfl

theorem sortConversations_filter_marker_sorted (l : List NormalizedConversation)
    (m : List Char) :
    ((sortConversations l).filter (hasMarker m)).Sorted
      (fun a b : NormalizedConversation => a.names ≤ b.names) := by
  haveI : IsTotal NormalizedConversation (fun a b => a.names ≤ b.names) :=
    ⟨fun a b => le_total a.names b.names⟩
  haveI : IsTrans NormalizedConversation (fun a b => a.names ≤ b.names) :=
    ⟨fun _ _ _ hab hbc => le_trans hab hbc⟩
  unfold sortConversations
  have hLp : (l.insertionSort (fun a b => a.names ≤ b.names)).Pairwise
      (fun a b => a.names ≤ b.names) :=
    List.sorted_insertionSort _ l
  have hc : ((l.insertionSort (fun a b => a.names ≤ b.names)).filter
      (hasMarker m)).Pairwise (fun a b => a.names ≤ b.names) :=
    hLp.sublist (List.filter_sublist _)
  have hall : ∀ x ∈ (l.insertionSort (fun a b => a.names ≤ b.names)).filter (hasMarker m),
      x.type_identifier = m := by
    intro x hx
    have hdec := (List.mem_filter.mp hx).2
    unfold hasMarker at hdec
    exact of_decide_eq_true hdec
  have hcM : ((l.insertionSort (fun a b => a.names ≤ b.names)).filter
      (hasMarker m)).Pairwise
      (fun a b : NormalizedConversation => a.type_identifier ≤ b.type_identifier) := by
    apply List.pairwise_of_forall_mem_list
    intro a ha b hb
    rw [hall a ha, hall b hb]
  have hsub : (l.insertionSort (fun a b => a.names ≤ b.names)).filter (hasMarker m) <+
      (l.insertionSort (fun a b => a.names ≤ b.names)).insertionSort
        (fun a b => a.type_identifier ≤ b.type_identifier) :=
    List.sublist_insertionSort hcM (List.filter_sublist _)
  have hperm : ((l.insertionSort (fun a b => a.names ≤ b.names)).insertionSort
        (fun a b => a.type_identifier ≤ b.type_identifier)).filter (hasMarker m) ~
      (l.insertionSort (fun a b => a.names ≤ b.names)).filter (hasMarker m) :=
    (List.perm_insertionSort _ _).filter _
  have hidem : ((l.insertionSort (fun a b => a.names ≤ b.names)).filter
        (hasMarker m)).filter (hasMarker m) =
      (l.insertionSort (fun a b => a.names ≤ b.names)).filter (hasMarker m) :=
    List.filter_eq_self.mpr (fun x hx => (List.mem_filter.mp hx).2)
  have hsub2 := hsub.filter (hasMarker m)
  rw [hidem] at hsub2
  have heq := hsub2.eq_of_length_le (le_of_eq hperm.length_eq)
  rw [← heq]
  exact hc

theorem pairwise_of_marker_classes :
    ∀ M : List NormalizedConversation,
      M.Sorted (fun a b : NormalizedConversation =>
        a.type_identifier ≤ b.type_identifier) →
      (∀ m, (M.filter (hasMarker m)).Sorted
        (fun a b : NormalizedConversation => a.names ≤ b.names)) →
      M.Pairwise conversationOrder := by
  intro M
  induction M with
  | nil => intro _ _; exact List.Pairwise.nil
  | cons a t ih =>
      intro hM hclasses
      have hMc := List.pairwise_cons.mp hM
      rw [List.pairwise_cons]
      constructor
      · intro b hb
        have hab : a.type_identifier ≤ b.type_identifier := hMc.1 b hb
        by_cases hEq : a.type_identifier = b.type_identifier
        · refine Or.inr ⟨hEq, ?_⟩
          have hfa := hclasses a.type_identifier
          have hpa : hasMarker a.type_identifier a = true := by
            unfold hasMarker
            exact decide_eq_true rfl
          rw [List.filter_cons_of_pos hpa] at hfa
          have hbmem : b ∈ t.filter (hasMarker a.type_identifier) :=
            List.mem_filter.mpr ⟨hb, by
              unfold hasMarker
              exact decide_eq_true hEq.symm⟩
          exact (List.pairwise_cons.mp hfa).1 b hbmem
        · exact Or.inl (lt_of_le_of_ne hab hEq)
      · apply ih hMc.2
        intro m
        have hm := hclasses m
        by_cases hpa : hasMarker m a = true
        · rw [List.filter_cons_of_pos hpa] at hm
          exact (List.pairwise_cons.mp hm).2
        · rw [List.filter_cons_of_neg hpa] at hm
          exact hm

/-- C4: the record sort — a sort by the `names` sequence followed by a stable
sort by `type_marker` — leaves the output grouped by type marker ascending and,
within each marker group, in ascending order of the name lists; on the spec's
example the markers "@", "#", "!", "@", "#" with first names "zed", "beta",
"gamma", "amy", "alpha" end up grouped by marker then by name. -/
theorem sort_groups_by_marker_then_names :
    (∀ l : List NormalizedConversation,
        (sortConversations l).Pairwise conversationOrder) ∧
    (∀ l : List NormalizedConversation, sortConversations l ~ l) ∧
    sortConversations
        [⟨str "I1", str "@", [str "zed"], false, false⟩,
          ⟨str "I2", str "#", [str "beta"], false, false⟩,
          ⟨str "I3", str "!", [str "gamma"], false, false⟩,
          ⟨str "I4", str "@", [str "amy"], false, false⟩,
          ⟨str "I5", str "#", [str "alpha"], false, false⟩] =
      [⟨str "I3", str "!", [str "gamma"], false, false⟩,
        ⟨str "I5", str "#", [str "alpha"], false, false⟩,
        ⟨str "I2", str "#", [str "beta"], false, false⟩,
        ⟨str "I4", str "@", [str "amy"], false, false⟩,
        ⟨str "I1", str "@", [str "zed"], false, false⟩] := by
  refine ⟨?_, ?_, by decide⟩
  · intro l
    haveI : IsTotal NormalizedConversation
        (fun a b => a.type_identifier ≤ b.type_identifier) :=
      ⟨fun a b => le_total _ _⟩
    haveI : IsTrans NormalizedConversation
        (fun a b => a.type_identifier ≤ b.type_identifier) :=
      ⟨fun _ _ _ hab hbc => le_trans hab hbc⟩
    apply pairwise_of_marker_classes
    · unfold sortConversations
      exact List.sorted_insertionSort _ _
    · exact fun m => sortConversations_filter_marker_sorted l m
  · intro l
    unfold sortConversations
    exact (List.perm_insertionSort _ _).trans (List.perm_insertionSort _ _)
